import Mathlib

/-!
Verification of the Apollo planning geometric kernels:
the Cartesian/Frenet state converter
(modules/planning/math/frame_conversion/cartesian_frenet_conversion.cc)
and the Reeds-Shepp path sampler contract exercised by
modules/planning/open_space/reeds_shepp_path_test.cc.

Doubles are embedded as real numbers; `std::atan2` is embedded through
`Complex.arg`, `std::copysign` as a sign selection on reals, and the
fatal `CHECK` precondition of `frenet_to_cartesian` as an `Option`.
-/

open Real

noncomputable section

namespace Apollo

/-- Embedding of `std::atan2(y, x)`: the argument of the complex number
`x + y i`, valued in `(-pi, pi]`, with `atan2 0 0 = 0`. -/
def atan2 (y x : ℝ) : ℝ := Complex.arg ⟨x, y⟩

/-- Modelled from the spec: `common::math::NormalizeAngle` (the repository file
modules/common/math/math_utils.cc is not part of the sources here); it wraps an
angle into one period by subtracting the right integer multiple of `2*pi`. -/
def NormalizeAngle (angle : ℝ) : ℝ :=
  angle - 2 * π * ⌊(angle + π) / (2 * π)⌋

/-- Embedding of `std::copysign(x, y)` on reals: the magnitude of `x` with the
sign of `y` (a real `y = 0` counts as positive, matching `+0.0`). -/
def copysign (x y : ℝ) : ℝ := if y < 0 then -|x| else |x|

/-- Modelled from the spec: `Double::Compare(d1, d2, eps)` from
modules/planning/math/double.h (not among the sources): the comparison
returns `0` exactly when the two doubles are within `eps` of each other. -/
def DoubleCompare (d1 d2 eps : ℝ) : ℤ :=
  if |d1 - d2| < eps then 0 else if d2 < d1 then 1 else -1

/-- Frenet state: the two `std::array<double, 3>` outputs `s_condition`
(station and its time derivatives) and `d_condition` (lateral offset and its
station derivatives). -/
structure FrenetState where
  s0 : ℝ
  s1 : ℝ
  s2 : ℝ
  d0 : ℝ
  d1 : ℝ
  d2 : ℝ

/-- Cartesian state: position, heading, curvature, speed, acceleration. -/
structure CartesianState where
  x : ℝ
  y : ℝ
  theta : ℝ
  kappa : ℝ
  v : ℝ
  a : ℝ

namespace CartesianFrenetConverter

/-- Embedding of `CartesianFrenetConverter::cartesian_to_frenet`.  The local
`double` temporaries of the source are the `let` bindings. -/
def cartesian_to_frenet (rs rx ry rtheta rkappa rdkappa x y v a theta kappa :
    ℝ) : FrenetState :=
  let dx := x - rx
  let dy := y - ry
  let cos_theta_r := Real.cos rtheta
  let sin_theta_r := Real.sin rtheta
  let cross_rd_nd := cos_theta_r * dy - sin_theta_r * dx
  let d0 := copysign (Real.sqrt (dx * dx + dy * dy)) cross_rd_nd
  let delta_theta := theta - rtheta
  let tan_delta_theta := Real.tan delta_theta
  let cos_delta_theta := Real.cos delta_theta
  let one_minus_kappa_r_d := 1 - rkappa * d0
  let d1 := one_minus_kappa_r_d * tan_delta_theta
  let kappa_r_d_prime := rdkappa * d0 + rkappa * d1
  let d2 := -kappa_r_d_prime * tan_delta_theta +
      one_minus_kappa_r_d / cos_delta_theta / cos_delta_theta *
        (kappa * one_minus_kappa_r_d / cos_delta_theta - rkappa)
  let s0 := rs
  let s1 := v * cos_delta_theta / one_minus_kappa_r_d
  let delta_theta_prime := one_minus_kappa_r_d / cos_delta_theta * kappa - rkappa
  let s2 := (a * cos_delta_theta -
      s1 * s1 * (d1 * delta_theta_prime - kappa_r_d_prime)) /
      one_minus_kappa_r_d
  ⟨s0, s1, s2, d0, d1, d2⟩

/-- Embedding of `CartesianFrenetConverter::frenet_to_cartesian`.  The fatal
`CHECK(std::abs(rs - s_condition[0]) < 1.0e-6)` is embedded as the guard of an
`Option`: a violated precondition aborts and no Cartesian state is produced. -/
def frenet_to_cartesian (rs rx ry rtheta rkappa rdkappa : ℝ)
    (s_condition d_condition : ℝ × ℝ × ℝ) : Option CartesianState :=
  if |rs - s_condition.1| < 1e-6 then
    let cos_theta_r := Real.cos rtheta
    let sin_theta_r := Real.sin rtheta
    let px := rx - sin_theta_r * d_condition.1
    let py := ry + cos_theta_r * d_condition.1
    let one_minus_kappa_r_d := 1 - rkappa * d_condition.1
    let tan_delta_theta := d_condition.2.1 / one_minus_kappa_r_d
    let delta_theta := atan2 d_condition.2.1 one_minus_kappa_r_d
    let cos_delta_theta := Real.cos delta_theta
    let ptheta := NormalizeAngle (delta_theta + rtheta)
    let kappa_r_d_prime := rdkappa * d_condition.1 + rkappa * d_condition.2.1
    let pkappa := (((d_condition.2.2 + kappa_r_d_prime * tan_delta_theta) *
        cos_delta_theta * cos_delta_theta) / one_minus_kappa_r_d + rkappa) *
        cos_delta_theta / one_minus_kappa_r_d
    let d_dot := d_condition.2.1 * s_condition.2.1
    let pv := Real.sqrt (one_minus_kappa_r_d * one_minus_kappa_r_d *
        s_condition.2.1 * s_condition.2.1 + d_dot * d_dot)
    let delta_theta_prime := one_minus_kappa_r_d / cos_delta_theta * pkappa - rkappa
    let pa := s_condition.2.2 * one_minus_kappa_r_d / cos_delta_theta +
        s_condition.2.1 * s_condition.2.1 / cos_delta_theta *
          (d_condition.2.1 * delta_theta_prime - kappa_r_d_prime)
    some ⟨px, py, ptheta, pkappa, pv, pa⟩
  else none

/-- Embedding of `CartesianFrenetConverter::CalculateTheta`. -/
def CalculateTheta (rtheta rkappa l dl : ℝ) : ℝ :=
  NormalizeAngle (rtheta + atan2 dl (1 - l * rkappa))

/-- Embedding of `CartesianFrenetConverter::CalculateKappa`; `std::pow(d, 1.5)`
is the real power `d ^ (1.5 : ℝ)`. -/
def CalculateKappa (rkappa rdkappa l dl ddl : ℝ) : ℝ :=
  let denominator := dl * dl + (1 - l * rkappa) * (1 - l * rkappa)
  if DoubleCompare denominator 0 1e-8 = 0 then 0
  else
    (rkappa + ddl - 2 * l * rkappa * rkappa - l * ddl * rkappa +
        l * l * rkappa * rkappa * rkappa + l * dl * rdkappa +
        2 * dl * dl * rkappa) /
      denominator ^ (1.5 : ℝ)

/-- Embedding of `CartesianFrenetConverter::CalculateCartesianPoint`
(`Eigen::Vector2d` becomes a pair of reals). -/
def CalculateCartesianPoint (rtheta : ℝ) (rpoint : ℝ × ℝ) (l : ℝ) : ℝ × ℝ :=
  (rpoint.1 - l * Real.sin rtheta, rpoint.2 + l * Real.cos rtheta)

/-- Embedding of `CartesianFrenetConverter::CalculateLateralDerivative`. -/
def CalculateLateralDerivative (rtheta theta l rkappa : ℝ) : ℝ :=
  (1 - rkappa * l) * Real.tan (theta - rtheta)

/-- Embedding of
`CartesianFrenetConverter::CalculateSecondOrderLateralDerivative`. -/
def CalculateSecondOrderLateralDerivative
    (rtheta theta rkappa kappa rdkappa l : ℝ) : ℝ :=
  let dl := CalculateLateralDerivative rtheta theta l rkappa
  let theta_diff := theta - rtheta
  let cos_theta_diff := Real.cos theta_diff
  let second_order := -(rdkappa * l + rkappa * dl) * Real.tan (theta - rtheta) +
    (1 - rkappa * l) / (cos_theta_diff * cos_theta_diff) *
      (kappa * (1 - rkappa * l) / cos_theta_diff - rkappa)
  second_order

end CartesianFrenetConverter

/-! Basic facts about the embedded primitives. -/

lemma atan2_sin (y x : ℝ) :
    Real.sin (atan2 y x) = y / Real.sqrt (x ^ 2 + y ^ 2) := by
  have h : (Complex.mk x y).im / Complex.abs (Complex.mk x y) =
      y / Real.sqrt (x ^ 2 + y ^ 2) := by
    rw [Complex.abs_apply, Complex.normSq_mk]
    have : x * x + y * y = x ^ 2 + y ^ 2 := by ring
    rw [this]
  rw [atan2, Complex.sin_arg, h]

lemma atan2_cos (y x : ℝ) (hx : x ≠ 0) :
    Real.cos (atan2 y x) = x / Real.sqrt (x ^ 2 + y ^ 2) := by
  have hz : (Complex.mk x y) ≠ 0 := by
    simp only [ne_eq, Complex.ext_iff, Complex.zero_re, Complex.zero_im, not_and]
    intro h
    exact absurd h hx
  have h : (Complex.mk x y).re / Complex.abs (Complex.mk x y) =
      x / Real.sqrt (x ^ 2 + y ^ 2) := by
    rw [Complex.abs_apply, Complex.normSq_mk]
    have : x * x + y * y = x ^ 2 + y ^ 2 := by ring
    rw [this]
  rw [atan2, Complex.cos_arg hz, h]

lemma normalizeAngle_eq_sub_int_mul (θ : ℝ) :
    ∃ k : ℤ, NormalizeAngle θ = θ - k * (2 * π) := by
  refine ⟨⌊(θ + π) / (2 * π)⌋, ?_⟩
  rw [NormalizeAngle]
  ring

lemma cos_normalizeAngle_sub (ψ c : ℝ) :
    Real.cos (NormalizeAngle ψ - c) = Real.cos (ψ - c) := by
  obtain ⟨k, hk⟩ := normalizeAngle_eq_sub_int_mul ψ
  have h : NormalizeAngle ψ - c = (ψ - c) - k * (2 * π) := by rw [hk]; ring
  rw [h, Real.cos_sub_int_mul_two_pi]

lemma sin_normalizeAngle_sub (ψ c : ℝ) :
    Real.sin (NormalizeAngle ψ - c) = Real.sin (ψ - c) := by
  obtain ⟨k, hk⟩ := normalizeAngle_eq_sub_int_mul ψ
  have h : NormalizeAngle ψ - c = (ψ - c) - k * (2 * π) := by rw [hk]; ring
  rw [h, Real.sin_sub_int_mul_two_pi]

lemma tan_normalizeAngle_sub (ψ c : ℝ) :
    Real.tan (NormalizeAngle ψ - c) = Real.tan (ψ - c) := by
  rw [Real.tan_eq_sin_div_cos, Real.tan_eq_sin_div_cos,
    cos_normalizeAngle_sub, sin_normalizeAngle_sub]

lemma copysign_abs_self (d : ℝ) : copysign |d| d = d := by
  rw [copysign]
  rcases lt_or_le d 0 with h | h
  · rw [if_pos h, abs_abs, abs_of_neg h, neg_neg]
  · rw [if_neg (not_lt.mpr h), abs_abs, abs_of_nonneg h]

lemma abs_copysign (x y : ℝ) : |copysign x y| = |x| := by
  rw [copysign]
  rcases lt_or_le y 0 with h | h
  · rw [if_pos h, abs_neg, abs_abs]
  · rw [if_neg (not_lt.mpr h), abs_abs]

namespace CartesianFrenetConverter

/-! Field equations of the converter outputs, read off the source. -/

lemma cartesian_to_frenet_d0 (rs rx ry rtheta rkappa rdkappa x y v a theta
    kappa : ℝ) :
    (cartesian_to_frenet rs rx ry rtheta rkappa rdkappa x y v a theta
      kappa).d0 =
      copysign (Real.sqrt ((x - rx) * (x - rx) + (y - ry) * (y - ry)))
        (Real.cos rtheta * (y - ry) - Real.sin rtheta * (x - rx)) := rfl

lemma cartesian_to_frenet_d1 (rs rx ry rtheta rkappa rdkappa x y v a theta
    kappa : ℝ) :
    (cartesian_to_frenet rs rx ry rtheta rkappa rdkappa x y v a theta
      kappa).d1 =
      (1 - rkappa * (cartesian_to_frenet rs rx ry rtheta rkappa rdkappa x y v a
        theta kappa).d0) * Real.tan (theta - rtheta) := rfl

lemma cartesian_to_frenet_d2 (rs rx ry rtheta rkappa rdkappa x y v a theta
    kappa : ℝ) :
    (cartesian_to_frenet rs rx ry rtheta rkappa rdkappa x y v a theta
      kappa).d2 =
      -(rdkappa * (cartesian_to_frenet rs rx ry rtheta rkappa rdkappa x y v a
          theta kappa).d0 +
        rkappa * (cartesian_to_frenet rs rx ry rtheta rkappa rdkappa x y v a
          theta kappa).d1) * Real.tan (theta - rtheta) +
      (1 - rkappa * (cartesian_to_frenet rs rx ry rtheta rkappa rdkappa x y v a
          theta kappa).d0) / Real.cos (theta - rtheta) /
        Real.cos (theta - rtheta) *
        (kappa * (1 - rkappa * (cartesian_to_frenet rs rx ry rtheta rkappa
          rdkappa x y v a theta kappa).d0) / Real.cos (theta - rtheta) -
          rkappa) := rfl

lemma cartesian_to_frenet_s0 (rs rx ry rtheta rkappa rdkappa x y v a theta
    kappa : ℝ) :
    (cartesian_to_frenet rs rx ry rtheta rkappa rdkappa x y v a theta
      kappa).s0 = rs := rfl

lemma cartesian_to_frenet_s1 (rs rx ry rtheta rkappa rdkappa x y v a theta
    kappa : ℝ) :
    (cartesian_to_frenet rs rx ry rtheta rkappa rdkappa x y v a theta
      kappa).s1 =
      v * Real.cos (theta - rtheta) /
        (1 - rkappa * (cartesian_to_frenet rs rx ry rtheta rkappa rdkappa x y v
          a theta kappa).d0) := rfl

lemma cartesian_to_frenet_s2 (rs rx ry rtheta rkappa rdkappa x y v a theta
    kappa : ℝ) :
    (cartesian_to_frenet rs rx ry rtheta rkappa rdkappa x y v a theta
      kappa).s2 =
      (a * Real.cos (theta - rtheta) -
        (cartesian_to_frenet rs rx ry rtheta rkappa rdkappa x y v a theta
          kappa).s1 *
        (cartesian_to_frenet rs rx ry rtheta rkappa rdkappa x y v a theta
          kappa).s1 *
        ((cartesian_to_frenet rs rx ry rtheta rkappa rdkappa x y v a theta
          kappa).d1 *
          ((1 - rkappa * (cartesian_to_frenet rs rx ry rtheta rkappa rdkappa x
            y v a theta kappa).d0) / Real.cos (theta - rtheta) * kappa -
            rkappa) -
          (rdkappa * (cartesian_to_frenet rs rx ry rtheta rkappa rdkappa x y v
            a theta kappa).d0 +
            rkappa * (cartesian_to_frenet rs rx ry rtheta rkappa rdkappa x y v
            a theta kappa).d1))) /
        (1 - rkappa * (cartesian_to_frenet rs rx ry rtheta rkappa rdkappa x y v
          a theta kappa).d0) := rfl

end CartesianFrenetConverter

lemma atan2_zero_one : atan2 0 1 = 0 := by
  have h : (Complex.mk 1 0) = 1 := by
    simp [Complex.ext_iff]
  rw [atan2, h, Complex.arg_one]

lemma normalizeAngle_zero : NormalizeAngle 0 = 0 := by
  have hpi := Real.pi_ne_zero
  have h : (0 + π) / (2 * π) = 1 / 2 := by
    field_simp
    ring
  rw [NormalizeAngle, h]
  norm_num

namespace CartesianFrenetConverter

/-- Evaluation of `frenet_to_cartesian` at the all-zero reference and state. -/
lemma frenet_to_cartesian_zero :
    frenet_to_cartesian 0 0 0 0 0 0 (0, 0, 0) (0, 0, 0) =
      some ⟨0, 0, 0, 0, 0, 0⟩ := by
  rw [frenet_to_cartesian, if_pos (by norm_num : |(0:ℝ) -
    ((0:ℝ), (0:ℝ), (0:ℝ)).1| < 1e-6)]
  norm_num [atan2_zero_one, normalizeAngle_zero]

/-- C2: `frenet_to_cartesian` aborts (producing no Cartesian state) exactly
when the supplied reference station differs from the state's station
`s_condition[0]` by `1e-6` or more; when the difference is below `1e-6` the
conversion proceeds and returns a value. -/
theorem frenet_to_cartesian_station_precondition
    (rs rx ry rtheta rkappa rdkappa : ℝ) (s d : ℝ × ℝ × ℝ) :
    frenet_to_cartesian rs rx ry rtheta rkappa rdkappa s d = none ↔
      1e-6 ≤ |rs - s.1| := by
  rw [frenet_to_cartesian]
  by_cases h : |rs - s.1| < 1e-6
  · rw [if_pos h]
    simp [not_le.mpr h]
  · rw [if_neg h]
    simp [not_lt.mp h]

/-- C2 witness: with a station mismatch of 1 the conversion aborts. -/
theorem frenet_to_cartesian_station_precondition_witness :
    frenet_to_cartesian 1 0 0 0 0 0 (0, 0, 0) (0, 0, 0) = none := by
  refine (frenet_to_cartesian_station_precondition 1 0 0 0 0 0 (0, 0, 0)
    (0, 0, 0)).mpr ?_
  norm_num

/-- C3: `CalculateKappa` returns exactly 0 when the magnitude of its
denominator `dl^2 + (1 - l*rkappa)^2` is below `1e-8`, and otherwise returns
the closed-form numerator divided by the denominator raised to the power 1.5;
the division is always guarded and the function is total. -/
theorem CalculateKappa_guarded (rkappa rdkappa l dl ddl : ℝ) :
    CalculateKappa rkappa rdkappa l dl ddl =
      if |dl * dl + (1 - l * rkappa) * (1 - l * rkappa)| < 1e-8 then 0
      else
        (rkappa + ddl - 2 * l * rkappa * rkappa - l * ddl * rkappa +
            l * l * rkappa * rkappa * rkappa + l * dl * rdkappa +
            2 * dl * dl * rkappa) /
          (dl * dl + (1 - l * rkappa) * (1 - l * rkappa)) ^ (1.5 : ℝ) := by
  rw [CalculateKappa, DoubleCompare, sub_zero]
  by_cases h : |dl * dl + (1 - l * rkappa) * (1 - l * rkappa)| < 1e-8
  · rw [if_pos h, if_pos rfl, if_pos h]
  · rw [if_neg h, if_neg h]
    by_cases h2 : (0:ℝ) < dl * dl + (1 - l * rkappa) * (1 - l * rkappa)
    · rw [if_pos h2, if_neg (by norm_num)]
    · rw [if_neg h2, if_neg (by norm_num)]

/-- C4: the lateral offset `d_condition[0]` computed by `cartesian_to_frenet`
has magnitude equal to the Euclidean distance from the reference point to the
Cartesian point, and carries the sign of the cross term
`cos(rtheta)*(y - ry) - sin(rtheta)*(x - rx)` (positive when the point lies to
the left of the reference heading, negative when to the right). -/
theorem cartesian_to_frenet_signed_lateral_offset
    (rs rx ry rtheta rkappa rdkappa x y v a theta kappa : ℝ) :
    |(cartesian_to_frenet rs rx ry rtheta rkappa rdkappa x y v a theta
        kappa).d0| = Real.sqrt ((x - rx) ^ 2 + (y - ry) ^ 2) ∧
      (0 < Real.cos rtheta * (y - ry) - Real.sin rtheta * (x - rx) →
        0 < (cartesian_to_frenet rs rx ry rtheta rkappa rdkappa x y v a theta
          kappa).d0) ∧
      (Real.cos rtheta * (y - ry) - Real.sin rtheta * (x - rx) < 0 →
        (cartesian_to_frenet rs rx ry rtheta rkappa rdkappa x y v a theta
          kappa).d0 < 0) := by
  rw [cartesian_to_frenet_d0]
  have hsq : (x - rx) * (x - rx) + (y - ry) * (y - ry) =
      (x - rx) ^ 2 + (y - ry) ^ 2 := by ring
  refine ⟨?_, ?_, ?_⟩
  · rw [abs_copysign, abs_of_nonneg (Real.sqrt_nonneg _), hsq]
  · intro h
    have hpos : 0 < (x - rx) * (x - rx) + (y - ry) * (y - ry) := by
      rcases eq_or_ne (x - rx) 0 with h1 | h1
      · rcases eq_or_ne (y - ry) 0 with h2 | h2
        · rw [h1, h2] at h
          simp at h
        · nlinarith [mul_self_pos.mpr h2, mul_self_nonneg (x - rx)]
      · nlinarith [mul_self_pos.mpr h1, mul_self_nonneg (y - ry)]
    rw [copysign, if_neg (not_lt.mpr h.le), abs_of_nonneg (Real.sqrt_nonneg _)]
    exact Real.sqrt_pos.mpr hpos
  · intro h
    have hpos : 0 < (x - rx) * (x - rx) + (y - ry) * (y - ry) := by
      rcases eq_or_ne (x - rx) 0 with h1 | h1
      · rcases eq_or_ne (y - ry) 0 with h2 | h2
        · rw [h1, h2] at h
          simp at h
        · nlinarith [mul_self_pos.mpr h2, mul_self_nonneg (x - rx)]
      · nlinarith [mul_self_pos.mpr h1, mul_self_nonneg (y - ry)]
    rw [copysign, if_pos h, abs_of_nonneg (Real.sqrt_nonneg _), neg_lt_zero]
    exact Real.sqrt_pos.mpr hpos

/-- C4 witness: a point one unit to the left of a reference heading along the
x axis has a positive lateral offset. -/
theorem cartesian_to_frenet_signed_lateral_offset_witness :
    0 < (cartesian_to_frenet 0 0 0 0 0 0 0 1 0 0 0 0).d0 :=
  (cartesian_to_frenet_signed_lateral_offset 0 0 0 0 0 0 0 1 0 0 0 0).2.1
    (by norm_num)

/-- C7: the first-order lateral derivative computed inline by
`cartesian_to_frenet` as `d_condition[1]`, and by the helper
`CalculateLateralDerivative`, both equal
`(1 - rkappa*d0) * tan(theta - rtheta)` where `d0` is the signed lateral
offset. -/
theorem lateral_derivative_formula
    (rs rx ry rtheta rkappa rdkappa x y v a theta kappa l : ℝ) :
    (cartesian_to_frenet rs rx ry rtheta rkappa rdkappa x y v a theta
        kappa).d1 =
      (1 - rkappa * (cartesian_to_frenet rs rx ry rtheta rkappa rdkappa x y v a
        theta kappa).d0) * Real.tan (theta - rtheta) ∧
    CalculateLateralDerivative rtheta theta l rkappa =
      (1 - rkappa * l) * Real.tan (theta - rtheta) :=
  ⟨rfl, rfl⟩

/-- C8: the helper `CalculateSecondOrderLateralDerivative` agrees exactly with
the inline `d_condition[2]` computation of `cartesian_to_frenet`, evaluated at
the corresponding arguments with `l` the computed lateral offset. -/
theorem second_order_lateral_derivative_equivalence
    (rs rx ry rtheta rkappa rdkappa x y v a theta kappa : ℝ) :
    (cartesian_to_frenet rs rx ry rtheta rkappa rdkappa x y v a theta
        kappa).d2 =
      CalculateSecondOrderLateralDerivative rtheta theta rkappa kappa rdkappa
        ((cartesian_to_frenet rs rx ry rtheta rkappa rdkappa x y v a theta
          kappa).d0) := by
  rw [cartesian_to_frenet_d2, cartesian_to_frenet_d1]
  simp only [CalculateSecondOrderLateralDerivative, CalculateLateralDerivative,
    div_div]

/-- C6: under the station precondition, `frenet_to_cartesian` produces
`x = rx - sin(rtheta)*d0`, `y = ry + cos(rtheta)*d0`, and
`theta = NormalizeAngle(rtheta + atan2(d1, 1 - rkappa*d0))`. -/
theorem frenet_to_cartesian_position_heading
    (rs rx ry rtheta rkappa rdkappa : ℝ) (s d : ℝ × ℝ × ℝ)
    (c : CartesianState)
    (hc : frenet_to_cartesian rs rx ry rtheta rkappa rdkappa s d = some c) :
    c.x = rx - Real.sin rtheta * d.1 ∧
      c.y = ry + Real.cos rtheta * d.1 ∧
      c.theta = NormalizeAngle (rtheta + atan2 d.2.1 (1 - rkappa * d.1)) := by
  by_cases h : |rs - s.1| < 1e-6
  · rw [frenet_to_cartesian, if_pos h] at hc
    injection hc with hc
    subst hc
    refine ⟨rfl, rfl, ?_⟩
    show NormalizeAngle (atan2 d.2.1 (1 - rkappa * d.1) + rtheta) = _
    rw [add_comm]
  · rw [frenet_to_cartesian, if_neg h] at hc
    exact absurd hc (by simp)

/-- C6 witness: the conversion at the all-zero reference and state. -/
theorem frenet_to_cartesian_position_heading_witness :
    (⟨0, 0, 0, 0, 0, 0⟩ : CartesianState).x =
        0 - Real.sin 0 * ((0:ℝ), (0:ℝ), (0:ℝ)).1 ∧
      (⟨0, 0, 0, 0, 0, 0⟩ : CartesianState).y =
        0 + Real.cos 0 * ((0:ℝ), (0:ℝ), (0:ℝ)).1 ∧
      (⟨0, 0, 0, 0, 0, 0⟩ : CartesianState).theta =
        NormalizeAngle (0 + atan2 ((0:ℝ), (0:ℝ), (0:ℝ)).2.1
          (1 - 0 * ((0:ℝ), (0:ℝ), (0:ℝ)).1)) :=
  frenet_to_cartesian_position_heading 0 0 0 0 0 0 (0, 0, 0) (0, 0, 0)
    ⟨0, 0, 0, 0, 0, 0⟩ frenet_to_cartesian_zero

/-- C9: the helpers `CalculateTheta` and `CalculateCartesianPoint` return
exactly the heading and position computed inline by `frenet_to_cartesian` at
the corresponding arguments. -/
theorem helpers_match_inline_frenet_to_cartesian
    (rs rx ry rtheta rkappa rdkappa : ℝ) (s d : ℝ × ℝ × ℝ)
    (c : CartesianState)
    (hc : frenet_to_cartesian rs rx ry rtheta rkappa rdkappa s d = some c) :
    c.theta = CalculateTheta rtheta rkappa d.1 d.2.1 ∧
      (c.x, c.y) = CalculateCartesianPoint rtheta (rx, ry) d.1 := by
  by_cases h : |rs - s.1| < 1e-6
  · rw [frenet_to_cartesian, if_pos h] at hc
    injection hc with hc
    subst hc
    constructor
    · show NormalizeAngle (atan2 d.2.1 (1 - rkappa * d.1) + rtheta) = _
      rw [CalculateTheta, add_comm, mul_comm d.1 rkappa]
    · show (rx - Real.sin rtheta * d.1, ry + Real.cos rtheta * d.1) = _
      rw [CalculateCartesianPoint, Prod.mk.injEq]
      constructor
      · ring
      · ring
  · rw [frenet_to_cartesian, if_neg h] at hc
    exact absurd hc (by simp)

/-- C9 witness: the helper agreement at the all-zero reference and state. -/
theorem helpers_match_inline_frenet_to_cartesian_witness :
    (⟨0, 0, 0, 0, 0, 0⟩ : CartesianState).theta =
        CalculateTheta 0 0 ((0:ℝ), (0:ℝ), (0:ℝ)).1
          ((0:ℝ), (0:ℝ), (0:ℝ)).2.1 ∧
      ((⟨0, 0, 0, 0, 0, 0⟩ : CartesianState).x,
        (⟨0, 0, 0, 0, 0, 0⟩ : CartesianState).y) =
        CalculateCartesianPoint 0 (0, 0) ((0:ℝ), (0:ℝ), (0:ℝ)).1 :=
  helpers_match_inline_frenet_to_cartesian 0 0 0 0 0 0 (0, 0, 0) (0, 0, 0)
    ⟨0, 0, 0, 0, 0, 0⟩ frenet_to_cartesian_zero

/-- C10: any Cartesian state returned by `frenet_to_cartesian` has a
non-negative velocity: the speed is a square root, so the sign of the
longitudinal speed `s_condition[1]` is never reflected in the output. -/
theorem frenet_to_cartesian_velocity_nonneg
    (rs rx ry rtheta rkappa rdkappa : ℝ) (s d : ℝ × ℝ × ℝ)
    (c : CartesianState)
    (hc : frenet_to_cartesian rs rx ry rtheta rkappa rdkappa s d = some c) :
    0 ≤ c.v := by
  by_cases h : |rs - s.1| < 1e-6
  · rw [frenet_to_cartesian, if_pos h] at hc
    injection hc with hc
    subst hc
    exact Real.sqrt_nonneg _
  · rw [frenet_to_cartesian, if_neg h] at hc
    exact absurd hc (by simp)

/-- C10 witness: non-negative velocity at the all-zero reference and state. -/
theorem frenet_to_cartesian_velocity_nonneg_witness :
    0 ≤ (⟨0, 0, 0, 0, 0, 0⟩ : CartesianState).v :=
  frenet_to_cartesian_velocity_nonneg 0 0 0 0 0 0 (0, 0, 0) (0, 0, 0)
    ⟨0, 0, 0, 0, 0, 0⟩ frenet_to_cartesian_zero

/-- Evaluation of `frenet_to_cartesian` on a reverse-gear Frenet state
(`s_condition[1] = -1`): the produced Cartesian speed is `+1`. -/
lemma frenet_to_cartesian_neg_speed :
    frenet_to_cartesian 0 0 0 0 0 0 (0, -1, 0) (0, 0, 0) =
      some ⟨0, 0, 0, 0, 1, 0⟩ := by
  rw [frenet_to_cartesian, if_pos (show |(0:ℝ) -
    ((0:ℝ), (-1:ℝ), (0:ℝ)).1| < 1e-6 by norm_num)]
  norm_num [atan2_zero_one, normalizeAngle_zero]

/-- C1 counterexample: at the all-zero reference sample, the Frenet state
`s = (0, -1, 0)`, `d = (0, 0, 0)` satisfies the station precondition and has
`kappa_ref * d0 = 0` bounded away from 1, yet the round trip through
`frenet_to_cartesian` and `cartesian_to_frenet` recovers `s1 = 1`, which
differs from the original `s1 = -1` by 2, far beyond `1e-6`. -/
theorem roundtrip_claim_counterexample :
    (1 : ℝ) - 0 * 0 ≠ 0 ∧ |(0 : ℝ) - 0| < 1e-6 ∧
      (frenet_to_cartesian 0 0 0 0 0 0 (0, -1, 0) (0, 0, 0)).map
        (fun c => (cartesian_to_frenet 0 0 0 0 0 0 c.x c.y c.v c.a c.theta
          c.kappa).s1) = some 1 ∧
      ¬ |(1 : ℝ) - (-1)| < 1e-6 := by
  refine ⟨by norm_num, by norm_num, ?_, by norm_num⟩
  rw [frenet_to_cartesian_neg_speed, Option.map_some']
  norm_num [cartesian_to_frenet, copysign]

/-! Supporting facts for the amended round-trip theorem. -/

lemma sqrt_one_minus_sq_add_sq_pos (rkappa d0 d1 : ℝ)
    (hu : 1 - rkappa * d0 ≠ 0) :
    0 < Real.sqrt ((1 - rkappa * d0) ^ 2 + d1 ^ 2) := by
  apply Real.sqrt_pos.mpr
  rcases hu.lt_or_lt with h | h <;> nlinarith [sq_nonneg d1]

/-- The lateral offset recovered from the point written by
`frenet_to_cartesian` is the original lateral offset. -/
lemma roundtrip_offset_d0 (rs rx ry rtheta rkappa rdkappa v a theta kappa d0 :
    ℝ) :
    (cartesian_to_frenet rs rx ry rtheta rkappa rdkappa
      (rx - Real.sin rtheta * d0) (ry + Real.cos rtheta * d0) v a theta
      kappa).d0 = d0 := by
  rw [cartesian_to_frenet_d0]
  have h1 : (rx - Real.sin rtheta * d0 - rx) * (rx - Real.sin rtheta * d0 - rx)
      + (ry + Real.cos rtheta * d0 - ry) * (ry + Real.cos rtheta * d0 - ry) =
      d0 ^ 2 := by
    linear_combination d0 ^ 2 * Real.sin_sq_add_cos_sq rtheta
  have h2 : Real.cos rtheta * (ry + Real.cos rtheta * d0 - ry) -
      Real.sin rtheta * (rx - Real.sin rtheta * d0 - rx) = d0 := by
    linear_combination d0 * Real.sin_sq_add_cos_sq rtheta
  rw [h1, h2, Real.sqrt_sq_eq_abs, copysign_abs_self]

lemma roundtrip_cos_delta (rtheta rkappa d0 d1 : ℝ)
    (hu : 1 - rkappa * d0 ≠ 0) :
    Real.cos (NormalizeAngle (atan2 d1 (1 - rkappa * d0) + rtheta) - rtheta) =
      (1 - rkappa * d0) / Real.sqrt ((1 - rkappa * d0) ^ 2 + d1 ^ 2) := by
  rw [cos_normalizeAngle_sub, add_sub_cancel_right, atan2_cos d1 _ hu]

lemma roundtrip_tan_delta (rtheta rkappa d0 d1 : ℝ)
    (hu : 1 - rkappa * d0 ≠ 0) :
    Real.tan (NormalizeAngle (atan2 d1 (1 - rkappa * d0) + rtheta) - rtheta) =
      d1 / (1 - rkappa * d0) := by
  have hr := (sqrt_one_minus_sq_add_sq_pos rkappa d0 d1 hu).ne'
  rw [tan_normalizeAngle_sub, add_sub_cancel_right, Real.tan_eq_sin_div_cos,
    atan2_sin, atan2_cos d1 _ hu]
  field_simp

/-- The speed written by `frenet_to_cartesian` for a non-negative
longitudinal speed `s1`. -/
lemma roundtrip_speed (rkappa d0 d1 s1 : ℝ) (hv : 0 ≤ s1) :
    Real.sqrt ((1 - rkappa * d0) * (1 - rkappa * d0) * s1 * s1 +
        d1 * s1 * (d1 * s1)) =
      s1 * Real.sqrt ((1 - rkappa * d0) ^ 2 + d1 ^ 2) := by
  have h : (1 - rkappa * d0) * (1 - rkappa * d0) * s1 * s1 +
      d1 * s1 * (d1 * s1) = s1 ^ 2 * ((1 - rkappa * d0) ^ 2 + d1 ^ 2) := by
    ring
  rw [h, Real.sqrt_mul (sq_nonneg s1), Real.sqrt_sq_eq_abs, abs_of_nonneg hv]

/-- The lateral derivative recovered by the round trip, for any speed,
acceleration and curvature inputs. -/
lemma roundtrip_lateral (rs rx ry rtheta rkappa rdkappa v a kappa d0 d1 : ℝ)
    (hu : 1 - rkappa * d0 ≠ 0) :
    (cartesian_to_frenet rs rx ry rtheta rkappa rdkappa
      (rx - Real.sin rtheta * d0) (ry + Real.cos rtheta * d0) v a
      (NormalizeAngle (atan2 d1 (1 - rkappa * d0) + rtheta)) kappa).d1 =
      d1 := by
  rw [cartesian_to_frenet_d1, roundtrip_offset_d0,
    roundtrip_tan_delta rtheta rkappa d0 d1 hu]
  field_simp

/-- The longitudinal speed recovered by the round trip, for a non-negative
original speed. -/
lemma roundtrip_station_speed (rs rx ry rtheta rkappa rdkappa a kappa d0 d1
    s1 : ℝ) (hu : 1 - rkappa * d0 ≠ 0) (hv : 0 ≤ s1) :
    (cartesian_to_frenet rs rx ry rtheta rkappa rdkappa
      (rx - Real.sin rtheta * d0) (ry + Real.cos rtheta * d0)
      (Real.sqrt ((1 - rkappa * d0) * (1 - rkappa * d0) * s1 * s1 +
        d1 * s1 * (d1 * s1))) a
      (NormalizeAngle (atan2 d1 (1 - rkappa * d0) + rtheta)) kappa).s1 =
      s1 := by
  have hr := (sqrt_one_minus_sq_add_sq_pos rkappa d0 d1 hu).ne'
  rw [cartesian_to_frenet_s1, roundtrip_offset_d0,
    roundtrip_speed rkappa d0 d1 s1 hv,
    roundtrip_cos_delta rtheta rkappa d0 d1 hu]
  field_simp
  ring

/-- The second-order lateral derivative recovered by the round trip, for any
speed and acceleration inputs, when the curvature input is the one written by
`frenet_to_cartesian`. -/
lemma roundtrip_second_order (rs rx ry rtheta rkappa rdkappa v a d0 d1 d2 : ℝ)
    (hu : 1 - rkappa * d0 ≠ 0) :
    (cartesian_to_frenet rs rx ry rtheta rkappa rdkappa
      (rx - Real.sin rtheta * d0) (ry + Real.cos rtheta * d0) v a
      (NormalizeAngle (atan2 d1 (1 - rkappa * d0) + rtheta))
      ((((d2 + (rdkappa * d0 + rkappa * d1) * (d1 / (1 - rkappa * d0))) *
          Real.cos (atan2 d1 (1 - rkappa * d0)) *
          Real.cos (atan2 d1 (1 - rkappa * d0))) / (1 - rkappa * d0) +
          rkappa) *
        Real.cos (atan2 d1 (1 - rkappa * d0)) / (1 - rkappa * d0))).d2 =
      d2 := by
  have hr := (sqrt_one_minus_sq_add_sq_pos rkappa d0 d1 hu).ne'
  rw [cartesian_to_frenet_d2, roundtrip_offset_d0,
    roundtrip_lateral rs rx ry rtheta rkappa rdkappa v a _ d0 d1 hu,
    roundtrip_tan_delta rtheta rkappa d0 d1 hu,
    roundtrip_cos_delta rtheta rkappa d0 d1 hu, atan2_cos d1 _ hu]
  field_simp
  ring

/-- The longitudinal acceleration recovered by the round trip, when the
speed, acceleration and curvature inputs are the ones written by
`frenet_to_cartesian`. -/
lemma roundtrip_station_accel (rs rx ry rtheta rkappa rdkappa d0 d1 d2 s1
    s2 : ℝ) (hu : 1 - rkappa * d0 ≠ 0) (hv : 0 ≤ s1) :
    (cartesian_to_frenet rs rx ry rtheta rkappa rdkappa
      (rx - Real.sin rtheta * d0) (ry + Real.cos rtheta * d0)
      (Real.sqrt ((1 - rkappa * d0) * (1 - rkappa * d0) * s1 * s1 +
        d1 * s1 * (d1 * s1)))
      (s2 * (1 - rkappa * d0) / Real.cos (atan2 d1 (1 - rkappa * d0)) +
        s1 * s1 / Real.cos (atan2 d1 (1 - rkappa * d0)) *
          (d1 * ((1 - rkappa * d0) / Real.cos (atan2 d1 (1 - rkappa * d0)) *
            ((((d2 + (rdkappa * d0 + rkappa * d1) *
                (d1 / (1 - rkappa * d0))) *
                Real.cos (atan2 d1 (1 - rkappa * d0)) *
                Real.cos (atan2 d1 (1 - rkappa * d0))) / (1 - rkappa * d0) +
                rkappa) *
              Real.cos (atan2 d1 (1 - rkappa * d0)) / (1 - rkappa * d0)) -
            rkappa) -
          (rdkappa * d0 + rkappa * d1)))
      (NormalizeAngle (atan2 d1 (1 - rkappa * d0) + rtheta))
      ((((d2 + (rdkappa * d0 + rkappa * d1) * (d1 / (1 - rkappa * d0))) *
          Real.cos (atan2 d1 (1 - rkappa * d0)) *
          Real.cos (atan2 d1 (1 - rkappa * d0))) / (1 - rkappa * d0) +
          rkappa) *
        Real.cos (atan2 d1 (1 - rkappa * d0)) / (1 - rkappa * d0))).s2 =
      s2 := by
  have hr := (sqrt_one_minus_sq_add_sq_pos rkappa d0 d1 hu).ne'
  rw [cartesian_to_frenet_s2, roundtrip_offset_d0,
    roundtrip_lateral rs rx ry rtheta rkappa rdkappa _ _ _ d0 d1 hu,
    roundtrip_station_speed rs rx ry rtheta rkappa rdkappa _ _ d0 d1 s1 hu hv,
    roundtrip_cos_delta rtheta rkappa d0 d1 hu, atan2_cos d1 _ hu]
  field_simp
  ring

/-- C1 amended: for any reference sample and Frenet state with
`1 - kappa_ref*d0` nonzero, station matching within `1e-6`, and non-negative
longitudinal speed `s1`, the round trip `cartesian_to_frenet` after
`frenet_to_cartesian` recovers the state: `s0` within `1e-6` (it is the
pass-through reference station) and `s1`, `s2`, `d0`, `d1`, `d2` exactly.
Without the non-negativity of `s1` the claim fails: the Cartesian speed is a
magnitude, so the round trip returns `|s1|`. -/
theorem cartesian_frenet_roundtrip
    (rs rx ry rtheta rkappa rdkappa s0 s1 s2 d0 d1 d2 : ℝ)
    (hs : |rs - s0| < 1e-6) (hu : 1 - rkappa * d0 ≠ 0) (hv : 0 ≤ s1) :
    ∃ c : CartesianState,
      frenet_to_cartesian rs rx ry rtheta rkappa rdkappa (s0, s1, s2)
        (d0, d1, d2) = some c ∧
      |(cartesian_to_frenet rs rx ry rtheta rkappa rdkappa c.x c.y c.v c.a
        c.theta c.kappa).s0 - s0| < 1e-6 ∧
      (cartesian_to_frenet rs rx ry rtheta rkappa rdkappa c.x c.y c.v c.a
        c.theta c.kappa).s1 = s1 ∧
      (cartesian_to_frenet rs rx ry rtheta rkappa rdkappa c.x c.y c.v c.a
        c.theta c.kappa).s2 = s2 ∧
      (cartesian_to_frenet rs rx ry rtheta rkappa rdkappa c.x c.y c.v c.a
        c.theta c.kappa).d0 = d0 ∧
      (cartesian_to_frenet rs rx ry rtheta rkappa rdkappa c.x c.y c.v c.a
        c.theta c.kappa).d1 = d1 ∧
      (cartesian_to_frenet rs rx ry rtheta rkappa rdkappa c.x c.y c.v c.a
        c.theta c.kappa).d2 = d2 := by
  have hfc : frenet_to_cartesian rs rx ry rtheta rkappa rdkappa (s0, s1, s2)
      (d0, d1, d2) =
      some ⟨rx - Real.sin rtheta * d0, ry + Real.cos rtheta * d0,
        NormalizeAngle (atan2 d1 (1 - rkappa * d0) + rtheta),
        (((d2 + (rdkappa * d0 + rkappa * d1) * (d1 / (1 - rkappa * d0))) *
            Real.cos (atan2 d1 (1 - rkappa * d0)) *
            Real.cos (atan2 d1 (1 - rkappa * d0))) / (1 - rkappa * d0) +
            rkappa) *
          Real.cos (atan2 d1 (1 - rkappa * d0)) / (1 - rkappa * d0),
        Real.sqrt ((1 - rkappa * d0) * (1 - rkappa * d0) * s1 * s1 +
          d1 * s1 * (d1 * s1)),
        s2 * (1 - rkappa * d0) / Real.cos (atan2 d1 (1 - rkappa * d0)) +
          s1 * s1 / Real.cos (atan2 d1 (1 - rkappa * d0)) *
            (d1 * ((1 - rkappa * d0) /
              Real.cos (atan2 d1 (1 - rkappa * d0)) *
              ((((d2 + (rdkappa * d0 + rkappa * d1) *
                  (d1 / (1 - rkappa * d0))) *
                  Real.cos (atan2 d1 (1 - rkappa * d0)) *
                  Real.cos (atan2 d1 (1 - rkappa * d0))) /
                  (1 - rkappa * d0) + rkappa) *
                Real.cos (atan2 d1 (1 - rkappa * d0)) / (1 - rkappa * d0)) -
              rkappa) -
            (rdkappa * d0 + rkappa * d1))⟩ := by
    rw [frenet_to_cartesian, if_pos (show |rs - ((s0, s1, s2) :
      ℝ × ℝ × ℝ).1| < 1e-6 from hs)]
  refine ⟨_, hfc, ?_, ?_, ?_, ?_, ?_, ?_⟩
  · rw [cartesian_to_frenet_s0]
    exact hs
  · exact roundtrip_station_speed rs rx ry rtheta rkappa rdkappa _ _ d0 d1 s1
      hu hv
  · exact roundtrip_station_accel rs rx ry rtheta rkappa rdkappa d0 d1 d2 s1
      s2 hu hv
  · exact roundtrip_offset_d0 rs rx ry rtheta rkappa rdkappa _ _ _ _ d0
  · exact roundtrip_lateral rs rx ry rtheta rkappa rdkappa _ _ _ d0 d1 hu
  · exact roundtrip_second_order rs rx ry rtheta rkappa rdkappa _ _ d0 d1 d2
      hu

/-- C1 witness: the amended round trip at the all-zero reference and state. -/
theorem cartesian_frenet_roundtrip_witness :
    |(0:ℝ) - 0| < 1e-6 ∧ (1 - (0:ℝ) * 0 ≠ 0) ∧ ((0:ℝ) ≤ 0) ∧
      (∃ c : CartesianState,
        frenet_to_cartesian 0 0 0 0 0 0 (0, 0, 0) (0, 0, 0) = some c ∧
        |(cartesian_to_frenet 0 0 0 0 0 0 c.x c.y c.v c.a c.theta
          c.kappa).s0 - 0| < 1e-6 ∧
        (cartesian_to_frenet 0 0 0 0 0 0 c.x c.y c.v c.a c.theta
          c.kappa).s1 = 0 ∧
        (cartesian_to_frenet 0 0 0 0 0 0 c.x c.y c.v c.a c.theta
          c.kappa).s2 = 0 ∧
        (cartesian_to_frenet 0 0 0 0 0 0 c.x c.y c.v c.a c.theta
          c.kappa).d0 = 0 ∧
        (cartesian_to_frenet 0 0 0 0 0 0 c.x c.y c.v c.a c.theta
          c.kappa).d1 = 0 ∧
        (cartesian_to_frenet 0 0 0 0 0 0 c.x c.y c.v c.a c.theta
          c.kappa).d2 = 0) :=
  ⟨by norm_num, by norm_num, le_refl 0,
    cartesian_frenet_roundtrip 0 0 0 0 0 0 0 0 0 0 0 0 (by norm_num)
      (by norm_num) (le_refl 0)⟩

end CartesianFrenetConverter

namespace ReedsShepp

/-! The Reeds-Shepp solver and sampler (modules/planning/open_space/
reeds_shepp_path.cc) are exercised only through their test here; the sampler
and its contract are modelled from the specification. -/

/-- Modelled from the spec: a planar pose, position plus heading. -/
structure Pose where
  x : ℝ
  y : ℝ
  phi : ℝ

/-- Modelled from the spec: a path-word segment motion, one of straight,
left arc, right arc. -/
inductive Motion
  | straight
  | leftArc
  | rightArc

/-- Modelled from the spec: driving gear of a segment. -/
inductive Gear
  | forward
  | reverse

/-- Modelled from the spec: the sign with which a gear traverses a segment. -/
def Gear.sign : Gear → ℝ
  | .forward => 1
  | .reverse => -1

/-- Modelled from the spec: a path-word segment, with its length in
turning-radius units (non-negative for feasible words). -/
structure Segment where
  motion : Motion
  gear : Gear
  len : ℝ

/-- Modelled from the spec: the unicycle pose reached after travelling a
physical arc length `s` along one segment from pose `p`: straight segments
advance along the current heading (sign by gear), turning segments rotate the
heading at constant rate `1/radius` while advancing along the arc. -/
def poseOnSeg (radius : ℝ) (p : Pose) (seg : Segment) (s : ℝ) : Pose :=
  match seg.motion with
  | .straight =>
      ⟨p.x + seg.gear.sign * s * Real.cos p.phi,
       p.y + seg.gear.sign * s * Real.sin p.phi, p.phi⟩
  | .leftArc =>
      ⟨p.x + radius *
        (Real.sin (p.phi + seg.gear.sign * s / radius) - Real.sin p.phi),
       p.y - radius *
        (Real.cos (p.phi + seg.gear.sign * s / radius) - Real.cos p.phi),
       p.phi + seg.gear.sign * s / radius⟩
  | .rightArc =>
      ⟨p.x - radius *
        (Real.sin (p.phi - seg.gear.sign * s / radius) - Real.sin p.phi),
       p.y + radius *
        (Real.cos (p.phi - seg.gear.sign * s / radius) - Real.cos p.phi),
       p.phi - seg.gear.sign * s / radius⟩

/-- Modelled from the spec: the exact end pose of one segment (physical
length is the segment length times the turning radius). -/
def segEnd (radius : ℝ) (p : Pose) (seg : Segment) : Pose :=
  poseOnSeg radius p seg (seg.len * radius)

/-- Modelled from the spec: the exact end pose of a path word, each segment
continuing from the end pose of the previous one. -/
def pathEnd (radius : ℝ) : Pose → List Segment → Pose
  | p, [] => p
  | p, seg :: rest => pathEnd radius (segEnd radius p seg) rest

/-- Modelled from the spec: the samples of one segment taken at `n`
successive arc-length increments of size `delta` from pose `p`. -/
def segSamplesAux (radius : ℝ) (seg : Segment) (delta : ℝ) :
    Pose → ℕ → List Pose
  | _, 0 => []
  | p, Nat.succ n =>
      poseOnSeg radius p seg delta ::
        segSamplesAux radius seg delta (poseOnSeg radius p seg delta) n

/-- Modelled from the spec: one segment is discretized at step-sized
arc-length increments; the increment count is the physical length divided by
the step, rounded up (and at least one), so each increment is at most the
step and the final sample is the exact segment end. -/
def segSamples (radius step : ℝ) (p : Pose) (seg : Segment) : List Pose :=
  segSamplesAux radius seg
    (seg.len * radius / (max 1 ⌈seg.len * radius / step⌉₊ : ℕ)) p
    (max 1 ⌈seg.len * radius / step⌉₊)

/-- Modelled from the spec: samples of a path word, walked segment by
segment, each segment continuing from the exact end pose of the previous one,
with no duplicate sample at the joints. -/
def pathSamples (radius step : ℝ) : Pose → List Segment → List Pose
  | _, [] => []
  | p, seg :: rest =>
      segSamples radius step p seg ++
        pathSamples radius step (segEnd radius p seg) rest

/-- Modelled from the spec: `Discretize` of a candidate path word from a
start pose: the start pose followed by the per-segment samples. -/
def Discretize (radius step : ℝ) (start : Pose) (word : List Segment) :
    List Pose :=
  start :: pathSamples radius step start word

/-- Squared planar distance between two sample poses. -/
def dist2 (p q : Pose) : ℝ := (q.x - p.x) ^ 2 + (q.y - p.y) ^ 2

/-! Geometry of single increments: a chord of the unicycle motion is no
longer than its arc. -/

lemma chord_sq (a b : ℝ) :
    (Real.sin b - Real.sin a) ^ 2 + (Real.cos b - Real.cos a) ^ 2 =
      2 - 2 * Real.cos (b - a) := by
  rw [Real.cos_sub]
  linear_combination Real.sin_sq_add_cos_sq a + Real.sin_sq_add_cos_sq b

lemma two_sub_two_cos_le_sq (θ : ℝ) : 2 - 2 * Real.cos θ ≤ θ ^ 2 := by
  have h1 : Real.sin (θ / 2) ^ 2 = 1 / 2 - Real.cos (2 * (θ / 2)) / 2 :=
    Real.sin_sq_eq_half_sub (θ / 2)
  have h2 : Real.sin (θ / 2) ^ 2 ≤ (θ / 2) ^ 2 := Real.sin_sq_le_sq
  have h3 : 2 * (θ / 2) = θ := by ring
  rw [h3] at h1
  nlinarith [h1, h2]

lemma poseOnSeg_zero (radius : ℝ) (p : Pose) (seg : Segment) :
    poseOnSeg radius p seg 0 = p := by
  rcases p with ⟨px, py, pphi⟩
  rcases seg with ⟨m, g, l⟩
  cases m <;> simp [poseOnSeg]

lemma poseOnSeg_add (radius : ℝ) (p : Pose) (seg : Segment) (s t : ℝ) :
    poseOnSeg radius (poseOnSeg radius p seg s) seg t =
      poseOnSeg radius p seg (s + t) := by
  rcases p with ⟨px, py, pphi⟩
  rcases seg with ⟨m, g, l⟩
  cases m
  · simp only [poseOnSeg, Pose.mk.injEq]
    refine ⟨by ring, by ring, trivial⟩
  · simp only [poseOnSeg]
    have h : pphi + Gear.sign g * s / radius + Gear.sign g * t / radius =
        pphi + Gear.sign g * (s + t) / radius := by ring
    rw [h, Pose.mk.injEq]
    refine ⟨by ring, by ring, rfl⟩
  · simp only [poseOnSeg]
    have h : pphi - Gear.sign g * s / radius - Gear.sign g * t / radius =
        pphi - Gear.sign g * (s + t) / radius := by ring
    rw [h, Pose.mk.injEq]
    refine ⟨by ring, by ring, rfl⟩

lemma dist2_poseOnSeg_le (radius : ℝ) (hR : radius ≠ 0) (p : Pose)
    (seg : Segment) (δ : ℝ) :
    dist2 p (poseOnSeg radius p seg δ) ≤ δ ^ 2 := by
  rcases p with ⟨px, py, pphi⟩
  rcases seg with ⟨m, g, l⟩
  have hg : Gear.sign g ^ 2 = 1 := by cases g <;> norm_num [Gear.sign]
  cases m
  · have hpyth := Real.sin_sq_add_cos_sq pphi
    simp only [poseOnSeg, dist2]
    have heq : (px + Gear.sign g * δ * Real.cos pphi - px) ^ 2 +
        (py + Gear.sign g * δ * Real.sin pphi - py) ^ 2 = δ ^ 2 := by
      linear_combination (δ ^ 2 * Gear.sign g ^ 2) * hpyth + δ ^ 2 * hg
    exact le_of_eq heq
  · have hchord := chord_sq pphi (pphi + Gear.sign g * δ / radius)
    have hb := two_sub_two_cos_le_sq (pphi + Gear.sign g * δ / radius - pphi)
    have harg : pphi + Gear.sign g * δ / radius - pphi =
        Gear.sign g * δ / radius := by ring
    rw [harg] at hchord hb
    have hsq : (Gear.sign g * δ / radius) ^ 2 * radius ^ 2 =
        Gear.sign g ^ 2 * δ ^ 2 := by
      field_simp
      ring
    simp only [poseOnSeg, dist2]
    nlinarith [hchord, hb, hsq, hg, sq_nonneg radius]
  · have hchord := chord_sq pphi (pphi - Gear.sign g * δ / radius)
    have hb := two_sub_two_cos_le_sq (pphi - Gear.sign g * δ / radius - pphi)
    have harg : pphi - Gear.sign g * δ / radius - pphi =
        -(Gear.sign g * δ / radius) := by ring
    rw [harg] at hchord hb
    have hsq : (-(Gear.sign g * δ / radius)) ^ 2 * radius ^ 2 =
        Gear.sign g ^ 2 * δ ^ 2 := by
      field_simp
      ring
    simp only [poseOnSeg, dist2]
    nlinarith [hchord, hb, hsq, hg, sq_nonneg radius]

lemma segSamplesAux_length (radius : ℝ) (seg : Segment) (δ : ℝ) (p : Pose)
    (n : ℕ) : (segSamplesAux radius seg δ p n).length = n := by
  induction n generalizing p with
  | zero => rfl
  | succ n ih => simp [segSamplesAux, ih]

lemma segSamplesAux_getLast (radius : ℝ) (seg : Segment) (δ : ℝ) (p : Pose)
    (n : ℕ) :
    (p :: segSamplesAux radius seg δ p n).getLast? =
      some (poseOnSeg radius p seg (n * δ)) := by
  induction n generalizing p with
  | zero => simp [segSamplesAux, poseOnSeg_zero]
  | succ n ih =>
      rw [segSamplesAux, List.getLast?_cons_cons,
        ih (poseOnSeg radius p seg δ), poseOnSeg_add]
      have h : δ + (n : ℝ) * δ = ((n + 1 : ℕ) : ℝ) * δ := by push_cast; ring
      rw [h]

lemma segSamplesAux_chain (radius : ℝ) (hR : radius ≠ 0) (seg : Segment)
    (δ bound : ℝ) (hδb : δ ^ 2 ≤ bound) (p : Pose) (n : ℕ) :
    List.Chain' (fun a b => dist2 a b ≤ bound)
      (p :: segSamplesAux radius seg δ p n) := by
  induction n generalizing p with
  | zero => simp [segSamplesAux]
  | succ n ih =>
      rw [segSamplesAux, List.chain'_cons]
      exact ⟨(dist2_poseOnSeg_le radius hR p seg δ).trans hδb, ih _⟩

/-! Per-segment sampling facts: the uniform increment is non-negative and no
larger than the step, there is at least one sample, and the last sample is
the exact segment end. -/

lemma seg_increment_nonneg (radius step : ℝ) (hR : 0 < radius)
    (seg : Segment) (hl : 0 ≤ seg.len) :
    0 ≤ seg.len * radius /
      ((max 1 ⌈seg.len * radius / step⌉₊ : ℕ) : ℝ) :=
  div_nonneg (mul_nonneg hl hR.le) (Nat.cast_nonneg _)

lemma seg_increment_le_step (radius step : ℝ)
    (hstep : 0 < step) (seg : Segment) :
    seg.len * radius / ((max 1 ⌈seg.len * radius / step⌉₊ : ℕ) : ℝ) ≤
      step := by
  have hk1 : (1 : ℕ) ≤ max 1 ⌈seg.len * radius / step⌉₊ := le_max_left _ _
  have hk0 : (0 : ℝ) < ((max 1 ⌈seg.len * radius / step⌉₊ : ℕ) : ℝ) := by
    exact_mod_cast Nat.lt_of_lt_of_le Nat.zero_lt_one hk1
  have hceil : seg.len * radius / step ≤
      ((max 1 ⌈seg.len * radius / step⌉₊ : ℕ) : ℝ) := by
    calc seg.len * radius / step ≤ (⌈seg.len * radius / step⌉₊ : ℝ) :=
          Nat.le_ceil _
    _ ≤ _ := by exact_mod_cast Nat.le_max_right 1 _
  rw [div_le_iff₀ hk0]
  calc seg.len * radius = seg.len * radius / step * step := by
        field_simp
  _ ≤ ((max 1 ⌈seg.len * radius / step⌉₊ : ℕ) : ℝ) * step :=
        mul_le_mul_of_nonneg_right hceil hstep.le
  _ = step * ((max 1 ⌈seg.len * radius / step⌉₊ : ℕ) : ℝ) := mul_comm _ _

lemma segSamples_chain (radius step : ℝ) (hR : 0 < radius) (hstep : 0 < step)
    (p : Pose) (seg : Segment) (hl : 0 ≤ seg.len) :
    List.Chain' (fun a b => dist2 a b ≤ step ^ 2)
      (p :: segSamples radius step p seg) := by
  rw [segSamples]
  refine segSamplesAux_chain radius hR.ne' seg _ _ ?_ p _
  exact pow_le_pow_left₀ (seg_increment_nonneg radius step hR seg hl)
    (seg_increment_le_step radius step hstep seg) 2

lemma segSamples_length_pos (radius step : ℝ) (p : Pose) (seg : Segment) :
    0 < (segSamples radius step p seg).length := by
  rw [segSamples, segSamplesAux_length]
  exact Nat.lt_of_lt_of_le Nat.zero_lt_one (le_max_left _ _)

lemma segSamples_getLast (radius step : ℝ) (p : Pose) (seg : Segment) :
    (p :: segSamples radius step p seg).getLast? =
      some (segEnd radius p seg) := by
  rw [segSamples, segSamplesAux_getLast]
  have hk1 : (1 : ℕ) ≤ max 1 ⌈seg.len * radius / step⌉₊ := le_max_left _ _
  have hk0 : ((max 1 ⌈seg.len * radius / step⌉₊ : ℕ) : ℝ) ≠ 0 :=
    Nat.cast_ne_zero.mpr (Nat.one_le_iff_ne_zero.mp hk1)
  have h : ((max 1 ⌈seg.len * radius / step⌉₊ : ℕ) : ℝ) *
      (seg.len * radius / ((max 1 ⌈seg.len * radius / step⌉₊ : ℕ) : ℝ)) =
      seg.len * radius := by
    field_simp
  rw [h, segEnd]

/-! Whole-path sampling facts. -/

lemma pathSamples_chain_getLast (radius step : ℝ) (hR : 0 < radius)
    (hstep : 0 < step) (word : List Segment) :
    ∀ p : Pose, (∀ seg ∈ word, 0 ≤ seg.len) →
      List.Chain' (fun a b => dist2 a b ≤ step ^ 2)
        (p :: pathSamples radius step p word) ∧
      (p :: pathSamples radius step p word).getLast? =
        some (pathEnd radius p word) := by
  induction word with
  | nil =>
      intro p _
      exact ⟨List.chain'_singleton p, by simp [pathSamples, pathEnd]⟩
  | cons seg rest ih =>
      intro p hw
      have hseg : 0 ≤ seg.len := hw seg (by simp)
      obtain ⟨ihc, ihl⟩ := ih (segEnd radius p seg)
        (fun s hs => hw s (by simp [hs]))
      have hA : p :: pathSamples radius step p (seg :: rest) =
          (p :: segSamples radius step p seg) ++
            pathSamples radius step (segEnd radius p seg) rest := by
        simp [pathSamples]
      constructor
      · rw [hA]
        refine List.Chain'.append
          (segSamples_chain radius step hR hstep p seg hseg)
          ihc.tail ?_
        intro x hx y hy
        rw [segSamples_getLast radius step p seg] at hx
        obtain rfl : segEnd radius p seg = x := by
          simpa using hx
        rcases hrest : pathSamples radius step (segEnd radius p seg) rest with
          _ | ⟨b, bs⟩
        · rw [hrest] at hy
          simp at hy
        · rw [hrest] at hy ihc
          obtain rfl : b = y := by simpa using hy
          exact (List.chain'_cons.mp ihc).1
      · rw [hA]
        rcases hrest : pathSamples radius step (segEnd radius p seg) rest with
          _ | ⟨b, bs⟩
        · rw [List.append_nil, segSamples_getLast radius step p seg]
          rw [hrest] at ihl
          simp only [List.getLast?_singleton] at ihl
          exact ihl
        · rw [List.getLast?_append_of_ne_nil _ (by simp)]
          rw [hrest] at ihl
          rw [List.getLast?_cons_cons] at ihl
          exact ihl

/-- C5: for a successful solver invocation — a non-empty feasible path word
(all segment lengths non-negative) whose integration from the start pose
reaches the end pose — the sampled path has more than one sample, consecutive
samples are at Euclidean distance at most `step * sqrt 2`, and the first and
last samples are within `0.01` of the start and end poses in x, y and
heading. -/
theorem sampled_path_invariants (radius step : ℝ) (start endp : Pose)
    (word : List Segment) (hR : 0 < radius) (hstep : 0 < step)
    (hword : word ≠ []) (hlen : ∀ seg ∈ word, 0 ≤ seg.len)
    (hend : pathEnd radius start word = endp) :
    1 < (Discretize radius step start word).length ∧
      List.Chain' (fun a b => Real.sqrt (dist2 a b) ≤ step * Real.sqrt 2)
        (Discretize radius step start word) ∧
      (∃ pf, (Discretize radius step start word).head? = some pf ∧
        |pf.x - start.x| < 0.01 ∧ |pf.y - start.y| < 0.01 ∧
        |pf.phi - start.phi| < 0.01) ∧
      (∃ pl, (Discretize radius step start word).getLast? = some pl ∧
        |pl.x - endp.x| < 0.01 ∧ |pl.y - endp.y| < 0.01 ∧
        |pl.phi - endp.phi| < 0.01) := by
  obtain ⟨hchain, hlast⟩ :=
    pathSamples_chain_getLast radius step hR hstep word start hlen
  refine ⟨?_, ?_, ⟨start, rfl, by norm_num, by norm_num, by norm_num⟩,
    ⟨endp, ?_, by norm_num, by norm_num, by norm_num⟩⟩
  · cases word with
    | nil => exact absurd rfl hword
    | cons seg rest =>
        have hpos := segSamples_length_pos radius step start seg
        simp only [Discretize, pathSamples, List.length_cons,
          List.length_append]
        omega
  · refine List.Chain'.imp ?_ hchain
    intro a b hab
    have h2 : (1 : ℝ) ≤ Real.sqrt 2 := by
      rw [show (1 : ℝ) = Real.sqrt 1 from (Real.sqrt_one).symm]
      exact Real.sqrt_le_sqrt (by norm_num)
    calc Real.sqrt (dist2 a b) ≤ Real.sqrt (step ^ 2) :=
          Real.sqrt_le_sqrt hab
    _ = step := by
          rw [Real.sqrt_sq hstep.le]
    _ ≤ step * Real.sqrt 2 := by nlinarith [h2, hstep.le]
  · rw [Discretize, hlast, hend]

/-- C5 witness: a single forward straight segment of one radius unit from the
origin, sampled at unit radius and unit step. -/
theorem sampled_path_invariants_witness :
    (0 : ℝ) < 1 ∧ (0 : ℝ) < 1 ∧
      ([⟨Motion.straight, Gear.forward, 1⟩] : List Segment) ≠ [] ∧
      (∀ seg ∈ ([⟨Motion.straight, Gear.forward, 1⟩] : List Segment),
        0 ≤ seg.len) ∧
      pathEnd 1 ⟨0, 0, 0⟩ [⟨Motion.straight, Gear.forward, 1⟩] =
        ⟨1, 0, 0⟩ ∧
      (1 < (Discretize 1 1 ⟨0, 0, 0⟩
          [⟨Motion.straight, Gear.forward, 1⟩]).length ∧
        List.Chain' (fun a b => Real.sqrt (dist2 a b) ≤ 1 * Real.sqrt 2)
          (Discretize 1 1 ⟨0, 0, 0⟩ [⟨Motion.straight, Gear.forward, 1⟩]) ∧
        (∃ pf, (Discretize 1 1 ⟨0, 0, 0⟩
            [⟨Motion.straight, Gear.forward, 1⟩]).head? = some pf ∧
          |pf.x - (⟨0, 0, 0⟩ : Pose).x| < 0.01 ∧
          |pf.y - (⟨0, 0, 0⟩ : Pose).y| < 0.01 ∧
          |pf.phi - (⟨0, 0, 0⟩ : Pose).phi| < 0.01) ∧
        (∃ pl, (Discretize 1 1 ⟨0, 0, 0⟩
            [⟨Motion.straight, Gear.forward, 1⟩]).getLast? = some pl ∧
          |pl.x - (⟨1, 0, 0⟩ : Pose).x| < 0.01 ∧
          |pl.y - (⟨1, 0, 0⟩ : Pose).y| < 0.01 ∧
          |pl.phi - (⟨1, 0, 0⟩ : Pose).phi| < 0.01)) := by
  have hend : pathEnd 1 ⟨0, 0, 0⟩ [⟨Motion.straight, Gear.forward, 1⟩] =
      (⟨1, 0, 0⟩ : Pose) := by
    simp [pathEnd, segEnd, poseOnSeg, Gear.sign]
  exact ⟨by norm_num, by norm_num, by simp, by simp, hend,
    sampled_path_invariants 1 1 ⟨0, 0, 0⟩ ⟨1, 0, 0⟩
      [⟨Motion.straight, Gear.forward, 1⟩] (by norm_num) (by norm_num)
      (by simp) (by simp) hend⟩

end ReedsShepp

end Apollo

end
